import Mathlib

/-!
Verification development for the hallucination-resistant RAG pipeline.

The Python source is shallowly embedded: pure functions become Lean
functions, filesystem effects become explicit lists of written paths or an
association list standing for the store, Python floats are modelled as
rationals, and fallible operations return Except. Each section names the
source file it translates.
-/

/-! ## Chunker (src/chunk.py) -/

/-- Whitespace test modelling the regex class backslash-s of re.sub in
chunkText (ASCII range; the Python class also covers rare Unicode spaces
that never appear in these documents). -/
def isWs (c : Char) : Bool :=
  c == ' ' || c == '\t' || c == '\n' || c == '\r' || c == '\x0b' || c == '\x0c'

/-- Helper of collapseWs: the flag records whether the previous character
belonged to a whitespace run already replaced by one space. -/
def collapseWsAux : Bool → List Char → List Char
  | _, [] => []
  | prevWs, c :: cs =>
    if isWs c then
      if prevWs then collapseWsAux true cs
      else ' ' :: collapseWsAux true cs
    else c :: collapseWsAux false cs

/-- Models re.sub of the pattern backslash-s-plus with a single space:
every maximal whitespace run becomes one space. -/
def collapseWs (l : List Char) : List Char :=
  collapseWsAux false l

/-- Models str.strip: drop whitespace from both ends. -/
def pyStrip (l : List Char) : List Char :=
  ((l.dropWhile isWs).reverse.dropWhile isWs).reverse

/-- Models str.split with an explicit single-character separator: empty
pieces are kept, and the empty input yields one empty piece, exactly as
in Python. -/
def splitOnChar (sep : Char) : List Char → List (List Char)
  | [] => [[]]
  | c :: cs =>
    let r := splitOnChar sep cs
    if c == sep then [] :: r
    else
      match r with
      | [] => [[c]]
      | w :: ws => (c :: w) :: ws

/-- The word list chunkText works on: re.sub, then strip, then split on a
single space. -/
def normWords (text : String) : List String :=
  (splitOnChar ' ' (pyStrip (collapseWs text.data))).map (fun w => (⟨w⟩ : String))

/-- The while loop of chunkText. step stands for chunkSize - overlap as a
natural number; the Python loop never terminates when that step is zero
(the spec flags the missing guard), so the zero case is fenced off in the
guard and all theorems assume overlap strictly below chunkSize. -/
def chunkLoop (words : List String) (chunkSize step : Nat) (start : Nat) : List String :=
  if h : step = 0 ∨ words.length ≤ start then []
  else
    String.intercalate " " ((words.drop start).take chunkSize) ::
      chunkLoop words chunkSize step (start + step)
termination_by words.length - start
decreasing_by
  push_neg at h
  omega

/-- Translation of chunkText: normalize whitespace, split into words, then
slide a window of chunkSize words advancing by chunkSize - overlap. -/
def chunkText (text : String) (chunkSize overlap : Nat) : List String :=
  chunkLoop (normWords text) chunkSize (chunkSize - overlap) 0

/-- The same loop kept at the level of word windows, before the final
space-join; used to state coverage of the normalized input. -/
def chunkWindows (words : List String) (chunkSize step : Nat) (start : Nat) :
    List (List String) :=
  if h : step = 0 ∨ words.length ≤ start then []
  else
    (words.drop start).take chunkSize ::
      chunkWindows words chunkSize step (start + step)
termination_by words.length - start
decreasing_by
  push_neg at h
  omega

/-! ## Confidence gate (src/decision.py) -/

/-- Translation of calculateConfidence: empty scores refuse with score 0,
otherwise distances turn into similarities 1 / (1 + d), the similarities
are averaged, and the decision compares the average with the threshold. -/
def calculateConfidence (similarityScores : List ℚ) (threshold : ℚ) : Bool × ℚ :=
  if similarityScores.isEmpty then (false, 0)
  else
    let similarities := similarityScores.map (fun d => 1 / (1 + d))
    let avgSimilarity := similarities.sum / (similarities.length : ℚ)
    (decide (avgSimilarity ≥ threshold), avgSimilarity)

/-- Reference definition written from the specification text of the
confidence gate, to be compared with the translation of the code. -/
def confidenceSpec (distances : List ℚ) (threshold : ℚ) : Bool × ℚ :=
  match distances with
  | [] => (false, 0)
  | _ :: _ =>
    let score := (distances.map (fun d => 1 / (1 + d))).sum / (distances.length : ℚ)
    (decide (score ≥ threshold), score)

/-- Translation of generateRefusalMessage. -/
def generateRefusalMessage : String :=
  "I\x27m sorry, but I cannot provide an answer based on the information available on the document. Please provide more context or ask a different question."

/-! ## Answer generation (src/generate.py) -/

/-- Models str.strip on strings, used on each retrieved chunk. -/
def pyStripStr (s : String) : String :=
  ⟨pyStrip s.data⟩

/-- Translation of the context-formatting loop of generateAnswer. -/
def formatContext (retrievedChunks : List String) : String :=
  retrievedChunks.enum.foldl
    (fun acc p =>
      acc ++ "\n--- Source " ++ Nat.repr (p.1 + 1) ++ " ---\n" ++ pyStripStr p.2 ++ "\n")
    ""

/-- The generation step of generateAnswer, which the source currently
stubs with a deterministic context dump in place of the external LLM. -/
def simulatedGeneration (question : String) (retrievedChunks : List String) : String :=
  "### Retrieved Information:\n" ++ formatContext retrievedChunks ++ "\n" ++
    "--------------------------------------------------\n" ++
    "System Note: This is raw context. Connect an LLM to generate a natural language summary."

/-- Translation of generateAnswer, parameterized by the generation
capability occupying the confident branch; the gate result is computed
first and the capability is only reached on the confident branch. -/
def generateAnswerWith (gen : String → List String → String) (question : String)
    (retrievedChunks : List String) (similarityScores : List ℚ) (threshold : ℚ) : String :=
  let c := calculateConfidence similarityScores threshold
  if c.1 = false then generateRefusalMessage
  else gen question retrievedChunks

/-- The generateAnswer of the source: the capability slot holds the
simulated generation. -/
def generateAnswer (question : String) (retrievedChunks : List String)
    (similarityScores : List ℚ) (threshold : ℚ) : String :=
  generateAnswerWith simulatedGeneration question retrievedChunks similarityScores threshold

/-! ## Retriever (src/retrieve.py, searchFaiss)

The faiss IndexFlatL2 search is an external dependency; it is embedded
with its documented exact-search semantics: squared euclidean distances,
the k nearest rows in ascending distance order, and, when k exceeds the
number of stored rows, padding entries with label -1 and FLT_MAX distance
(the FLT_MAX constant also appears verbatim in the test at the bottom of
src/decision.py). Vector entries are modelled as rationals. -/

/-- Squared L2 distance between two vectors, the metric of IndexFlatL2. -/
def sqL2 (u v : List ℚ) : ℚ :=
  (List.zipWith (fun a b => (a - b) * (a - b)) u v).sum

/-- The largest finite 32-bit float, the padding distance faiss reports
for result slots beyond the number of stored vectors. -/
def fltMax : ℚ := 340282350000000000000000000000000000000

/-- Embedding of index.search for a single query: score every stored row,
sort ascending by distance (stable, so ties keep insertion order), take k,
and pad to exactly k entries with (FLT_MAX, -1). -/
def faissSearch (index : List (List ℚ)) (q : List ℚ) (k : Nat) : List (ℚ × Int) :=
  let scored := index.enum.map (fun p => (sqL2 q p.2, (p.1 : Int)))
  let sorted := scored.mergeSort (fun a b => decide (a.1 ≤ b.1))
  sorted.take k ++ List.replicate (k - index.length) (fltMax, (-1 : Int))

/-- Python list subscription with an Int index: negative indices wrap
from the end. An out-of-range index raises IndexError in Python; that
case is unreachable for faiss labels against a nonempty metadata list and
is modelled by a default pair. -/
def pyGetMeta (metadata : List (String × String)) (i : Int) : String × String :=
  if 0 ≤ i then metadata.getD i.toNat ("", "")
  else metadata.getD (metadata.length - (-i).toNat) ("", "")

/-- Translation of searchFaiss: run the faiss search and map every
(distance, label) pair through the metadata list. -/
def searchFaiss (index : List (List ℚ)) (queryVector : List ℚ)
    (metadata : List (String × String)) (topK : Nat) : List (String × String × ℚ) :=
  (faissSearch index queryVector topK).map
    (fun r => ((pyGetMeta metadata r.2).1, (pyGetMeta metadata r.2).2, r.1))

/-! ## Embedding cache (src/embed.py)

The external embedding model is a parameter. The filesystem effect of
embedChunks is returned as the ordered list of (path, vector) writes; the
Python function returns None, so nothing but this effect comes back. Note
the signature translated from the source has no embeddings-directory
parameter: the target folder is fixed to PROJECT_ROOT/embeddings. -/

/-- Translation of embedChunks: for chunk i, write the encoded vector to
projectRoot/embeddings/filename/chunk_i.npy. -/
def embedChunks (encode : String → List ℚ) (projectRoot : String)
    (chunks : List String) (filename : String) : List (String × List ℚ) :=
  chunks.enum.map
    (fun p =>
      (projectRoot ++ "/embeddings/" ++ filename ++ "/chunk_" ++ Nat.repr p.1 ++ ".npy",
        encode p.2))

/-! ## Session uploads (src/upload.py) -/

/-- Translation of MAX_FILE_SIZE. -/
def maxFileSize : Nat := 50 * 1024 * 1024

/-- An uploaded file as validatePdfFile sees it: the filename (empty
models a missing one) and the size when the transport reported one. -/
structure UploadFile where
  filename : String
  size : Option Nat
deriving DecidableEq

/-- Models str.lower (ASCII case folding). -/
def pyLower (s : String) : String :=
  ⟨s.data.map Char.toLower⟩

/-- Models str.endswith. -/
def pyEndsWith (s suf : String) : Bool :=
  suf.data.isSuffixOf s.data

/-- Translation of validatePdfFile; the error payload is the HTTP status
code of the raised HTTPException. The size check keeps the Python
truthiness quirk: a missing or zero size skips the ceiling test. -/
def validatePdfFile (file : UploadFile) : Except Nat Unit :=
  if file.filename == "" then .error 400
  else if !(pyEndsWith (pyLower file.filename) ".pdf") then .error 400
  else
    match file.size with
    | some s => if s != 0 && decide (maxFileSize < s) then .error 400 else .ok ()
    | none => .ok ()

/-- Index of the last occurrence of a character, as str.rfind. -/
def pyRfind (l : List Char) (c : Char) : Option Nat :=
  (l.reverse.findIdx? (fun x => x == c)).map (fun j => l.length - 1 - j)

/-- Models pathlib suffix of a file name: the part from the last dot on,
empty when the dot is absent, leading, or trailing. -/
def pySuffix (name : String) : String :=
  match pyRfind name.data '.' with
  | some i => if 0 < i ∧ i < name.data.length - 1 then ⟨name.data.drop i⟩ else ""
  | none => ""

/-- Models pathlib stem: the file name with pySuffix removed. -/
def pyStem (name : String) : String :=
  match pyRfind name.data '.' with
  | some i => if 0 < i ∧ i < name.data.length - 1 then ⟨name.data.take i⟩ else name
  | none => name

/-- The candidate path tried at counter k by the de-duplication loop of
saveUploadedPdf. -/
def candidatePath (uploadsDir stem ext : String) (k : Nat) : String :=
  uploadsDir ++ "/" ++ stem ++ "_" ++ Nat.repr k ++ ext

/-- The while loop of saveUploadedPdf that searches a free counter. The
Python loop is unbounded but always exits on a finite filesystem; the
fuel is set by the caller to one more than the filesystem size, which the
freshness theorems show is never exhausted. -/
def dedupLoop (fs : List String) (uploadsDir stem ext : String) :
    Nat → Nat → String
  | _, 0 => ""
  | counter, fuel + 1 =>
    let cand := candidatePath uploadsDir stem ext counter
    if cand ∈ fs then dedupLoop fs uploadsDir stem ext (counter + 1) fuel else cand

/-- The storage path saveUploadedPdf picks, given the set of paths already
present: the plain uploads path when free, otherwise the first free
stem_k suffixed candidate starting at k = 1. -/
def resolveUploadPath (fs : List String) (uploadsDir filename : String) : String :=
  let p := uploadsDir ++ "/" ++ filename
  if p ∈ fs then
    dedupLoop fs uploadsDir (pyStem filename) (pySuffix filename) 1 (fs.length + 1)
  else p

/-- Translation of SESSIONS_DIR. -/
def sessionsDir : String := "data/sessions"

/-- Translation of saveUploadedPdf over a filesystem modelled as the list
of existing paths: validation runs first; on success the session and
uploads directories are created and the de-duplicated path written. The
first component lists the paths written or created, in order. -/
def saveUploadedPdf (fs : List String) (file : UploadFile) (sessionId : String) :
    List String × Except Nat (String × String) :=
  match validatePdfFile file with
  | .error c => ([], .error c)
  | .ok _ =>
    let sessionDir := sessionsDir ++ "/" ++ sessionId
    let uploadsDir := sessionDir ++ "/uploads"
    let path := resolveUploadPath fs uploadsDir file.filename
    ([sessionDir, uploadsDir, path], .ok (sessionId, path))

/-! ## Vector index build or load (src/retrieve.py, buildFaissIndex)

The store holding the persisted index and metadata is an association
list keyed by full path, most recent write first; faiss write_index and
read_index and the json round trip are modelled as faithful serialization
of the values. The contents of the embeddings folder are modelled as a
listing: one entry per subdirectory, with its files in listdir order; a
file is either a one-dimensional vector or an array of another rank,
which the scan skips. -/

/-- A persisted artifact: a faiss index file or a metadata json file. -/
inductive StoredFile where
  | faissIndex (vecs : List (List ℚ))
  | metaJson (md : List (String × String))
deriving DecidableEq

/-- A file inside one document subdirectory of the embeddings folder. -/
inductive NpFile where
  | vec (v : List ℚ)
  | multi
deriving DecidableEq

/-- Lookup by path in the persisted store. -/
def fsLookup (fs : List (String × StoredFile)) (p : String) : Option StoredFile :=
  (fs.find? (fun e => e.1 == p)).map (fun e => e.2)

/-- Write by path in the persisted store. -/
def fsWrite (fs : List (String × StoredFile)) (p : String) (v : StoredFile) :
    List (String × StoredFile) :=
  (p, v) :: fs

/-- The scan of one document subdirectory: keep files ending in .npy
whose payload is a one-dimensional vector, paired with their metadata
entry, in listing order. -/
def scanEntry (fileName : String) (files : List (String × NpFile)) :
    List (List ℚ × (String × String)) :=
  files.filterMap
    (fun f =>
      if pyEndsWith f.1 ".npy" then
        match f.2 with
        | .vec v => some (v, (fileName, f.1))
        | .multi => none
      else none)

/-- The full scan of the embeddings folder, in listing order. -/
def scanVectors (emb : List (String × List (String × NpFile))) :
    List (List ℚ × (String × String)) :=
  (emb.map (fun e => scanEntry e.1 e.2)).flatten

/-- Translation of buildFaissIndex: load the persisted index and metadata
when both paths exist at indexDir, otherwise scan the embeddings folder,
fail when no vector was found, stack the vectors (np.stack requires one
common dimension), persist index then metadata, and return them. -/
def buildFaissIndex (fs : List (String × StoredFile))
    (emb : List (String × List (String × NpFile))) (indexDir : String) :
    Except String (List (String × StoredFile) × List (List ℚ) × List (String × String)) :=
  let indexFile := indexDir ++ "/faiss_index.bin"
  let metadataFile := indexDir ++ "/metadata.json"
  match fsLookup fs indexFile, fsLookup fs metadataFile with
  | some f, some m =>
    match f, m with
    | .faissIndex vecs, .metaJson md => .ok (fs, vecs, md)
    | _, _ => .error "corrupt persisted files"
  | _, _ =>
    match scanVectors emb with
    | [] => .error "No embeddings found in embeddings folder!"
    | p :: rest =>
      let vectors := (p :: rest).map (fun q => q.1)
      let metadata := (p :: rest).map (fun q => q.2)
      let dim := p.1.length
      if vectors.all (fun v => v.length = dim) then
        let fs2 := fsWrite (fsWrite fs indexFile (.faissIndex vectors)) metadataFile
          (.metaJson metadata)
        .ok (fs2, vectors, metadata)
      else .error "np.stack: ragged vector shapes"

/-! ## Theorems -/

/-- C1: whenever the confidence gate decides against answering, the
answer operation returns the refusal message for every possible
generation capability in the generation slot, so the capability is never
invoked and the gate decision strictly precedes any generation. -/
theorem generateAnswer_refuses_without_confidence
    (question : String) (retrievedChunks : List String) (similarityScores : List ℚ)
    (threshold : ℚ) (h : (calculateConfidence similarityScores threshold).1 = false) :
    (∀ gen, generateAnswerWith gen question retrievedChunks similarityScores threshold =
      generateRefusalMessage) ∧
    generateAnswer question retrievedChunks similarityScores threshold =
      generateRefusalMessage := by
  constructor
  · intro gen
    simp [generateAnswerWith, h]
  · simp [generateAnswer, generateAnswerWith, h]

/-- Witness for C1 at a concrete low-confidence input. -/
theorem generateAnswer_refuses_without_confidence_witness :
    generateAnswerWith simulatedGeneration "What is the population of Mars?" [] []
      (2/5 : ℚ) = generateRefusalMessage ∧
    generateAnswer "What is the population of Mars?" [] [] (2/5 : ℚ) =
      generateRefusalMessage :=
  ⟨(generateAnswer_refuses_without_confidence "What is the population of Mars?" [] []
      (2/5) (by rfl)).1 simulatedGeneration,
    (generateAnswer_refuses_without_confidence "What is the population of Mars?" [] []
      (2/5) (by rfl)).2⟩

/-- C2: the confidence computation of the code coincides with the
reference definition from the specification, and each similarity
1 / (1 + d) lies in the half-open interval (0, 1] for a non-negative
distance d. -/
theorem calculateConfidence_matches_spec (distances : List ℚ) (threshold : ℚ) :
    calculateConfidence distances threshold = confidenceSpec distances threshold ∧
    ∀ d ∈ distances, 0 ≤ d → 0 < 1 / (1 + d) ∧ 1 / (1 + d) ≤ (1 : ℚ) := by
  constructor
  · cases distances with
    | nil => rfl
    | cons a l => simp [calculateConfidence, confidenceSpec]
  · intro d _ hd
    have h1 : (0 : ℚ) < 1 + d := by linarith
    exact ⟨one_div_pos.mpr h1, by rw [div_le_one h1]; linarith⟩

/-- Witness for C2 at a concrete distance list. -/
theorem calculateConfidence_matches_spec_witness :
    calculateConfidence [1] (1/2 : ℚ) = confidenceSpec [1] (1/2 : ℚ) ∧
    (0 < 1 / (1 + (1 : ℚ)) ∧ 1 / (1 + (1 : ℚ)) ≤ (1 : ℚ)) :=
  ⟨(calculateConfidence_matches_spec [1] (1/2)).1,
    (calculateConfidence_matches_spec [1] (1/2)).2 1 (by simp) (by norm_num)⟩

/-- C5: a file that does not carry the pdf extension, or whose reported
size exceeds the 50 MB ceiling, is rejected with status 400 and nothing
is written: validation runs strictly before any write. -/
theorem saveUploadedPdf_rejects_before_write (fs : List String) (file : UploadFile)
    (sessionId : String)
    (h : pyEndsWith (pyLower file.filename) ".pdf" = false ∨
      ∃ s, file.size = some s ∧ maxFileSize < s) :
    (saveUploadedPdf fs file sessionId).1 = [] ∧
    (saveUploadedPdf fs file sessionId).2 = .error 400 := by
  have hv : validatePdfFile file = .error 400 := by
    unfold validatePdfFile
    rcases h with h | ⟨s, hs, hgt⟩
    · by_cases he : file.filename = ""
      · simp [he]
      · simp [he, h]
    · by_cases he : file.filename = ""
      · simp [he]
      · by_cases hp : pyEndsWith (pyLower file.filename) ".pdf" = true
        · have hs0 : s ≠ 0 := by
            have : (0 : Nat) < maxFileSize := by norm_num [maxFileSize]
            omega
          simp [he, hp, hs, hs0, hgt]
        · simp [he, hp]
  simp [saveUploadedPdf, hv]

/-- Witness for C5 at a concrete non-pdf upload. -/
theorem saveUploadedPdf_rejects_before_write_witness :
    (saveUploadedPdf [] ⟨"notes.txt", none⟩ "s").1 = [] ∧
    (saveUploadedPdf [] ⟨"notes.txt", none⟩ "s").2 = .error 400 :=
  saveUploadedPdf_rejects_before_write [] ⟨"notes.txt", none⟩ "s" (Or.inl (by decide))

/-- Helper: splitting never returns an empty list of pieces. -/
theorem splitOnChar_ne_nil (sep : Char) (l : List Char) : splitOnChar sep l ≠ [] := by
  induction l with
  | nil => simp [splitOnChar]
  | cons c cs ih =>
    unfold splitOnChar
    by_cases h : c == sep
    · simp [h]
    · simp only [h]
      cases hr : splitOnChar sep cs with
      | nil => simp
      | cons w ws => simp

/-- Helper: the normalized word list is never empty. -/
theorem normWords_ne_nil (text : String) : normWords text ≠ [] := by
  unfold normWords
  intro h
  exact splitOnChar_ne_nil ' ' (pyStrip (collapseWs text.data)) (List.map_eq_nil_iff.mp h)

/-- Helper: inside a whitespace run already opened, the collapse drops
everything when the rest is all whitespace. -/
theorem collapseWsAux_true_of_all (l : List Char) (h : l.all isWs = true) :
    collapseWsAux true l = [] := by
  induction l with
  | nil => rfl
  | cons c cs ih =>
    simp only [List.all_cons, Bool.and_eq_true] at h
    simp [collapseWsAux, h.1, ih h.2]

/-- Helper: collapsing an all-whitespace text leaves nothing or a single
space. -/
theorem collapseWs_of_all (l : List Char) (h : l.all isWs = true) :
    collapseWs l = [] ∨ collapseWs l = [' '] := by
  cases l with
  | nil => exact Or.inl rfl
  | cons c cs =>
    simp only [List.all_cons, Bool.and_eq_true] at h
    right
    simp [collapseWs, collapseWsAux, h.1, collapseWsAux_true_of_all cs h.2]

/-- Helper: the normalized word list of an all-whitespace text is one
empty word, as Python split produces on the empty string. -/
theorem normWords_of_all_ws (text : String) (h : text.data.all isWs = true) :
    normWords text = [""] := by
  unfold normWords
  rcases collapseWs_of_all text.data h with hc | hc <;> rw [hc] <;> rfl

/-- C10: with a sane configuration the chunker never returns the empty
list, and on empty or all-whitespace input it returns exactly one chunk,
the empty string. -/
theorem chunkText_nonempty (text : String) (chunkSize overlap : Nat)
    (h : overlap < chunkSize) :
    chunkText text chunkSize overlap ≠ [] ∧
    (text.data.all isWs = true → chunkText text chunkSize overlap = [""]) := by
  have hstep : chunkSize - overlap ≠ 0 := by omega
  constructor
  · unfold chunkText
    have hlen : 0 < (normWords text).length :=
      List.length_pos.mpr (normWords_ne_nil text)
    unfold chunkLoop
    rw [dif_neg (by push_neg; exact ⟨hstep, by omega⟩)]
    simp
  · intro hws
    unfold chunkText
    rw [normWords_of_all_ws text hws]
    unfold chunkLoop
    rw [dif_neg (by push_neg; refine ⟨hstep, by simp⟩)]
    unfold chunkLoop
    rw [dif_pos (Or.inr (by simp; omega))]
    have htake : ([""] : List String).take chunkSize = [""] :=
      List.take_of_length_le (by simp; omega)
    simp [htake]
    rfl

/-- Witness for C10 at a whitespace-only input. -/
theorem chunkText_nonempty_witness :
    chunkText "  " 3 1 ≠ [] ∧ ("  ".data.all isWs = true → chunkText "  " 3 1 = [""]) :=
  chunkText_nonempty "  " 3 1 (by omega)

/-- Helper: the joined chunks are exactly the space-joins of the word
windows, for every start position. -/
theorem chunkLoop_eq_map_windows (words : List String) (chunkSize step : Nat) :
    ∀ (n start : Nat), words.length - start ≤ n →
      chunkLoop words chunkSize step start =
        (chunkWindows words chunkSize step start).map (String.intercalate " ") := by
  intro n
  induction n with
  | zero =>
    intro start hn
    unfold chunkLoop chunkWindows
    by_cases hs : step = 0
    · rw [dif_pos (Or.inl hs), dif_pos (Or.inl hs)]; rfl
    · rw [dif_pos (Or.inr (by omega)), dif_pos (Or.inr (by omega))]; rfl
  | succ n ih =>
    intro start hn
    by_cases hs : step = 0
    · unfold chunkLoop chunkWindows
      rw [dif_pos (Or.inl hs), dif_pos (Or.inl hs)]; rfl
    · by_cases hlt : words.length ≤ start
      · unfold chunkLoop chunkWindows
        rw [dif_pos (Or.inr hlt), dif_pos (Or.inr hlt)]; rfl
      · unfold chunkLoop chunkWindows
        rw [dif_neg (by push_neg; exact ⟨hs, by omega⟩),
          dif_neg (by push_neg; exact ⟨hs, by omega⟩)]
        rw [List.map_cons]
        rw [ih (start + step) (by omega)]

/-- Helper: every word at or after the start position appears in some
window, as long as the step is positive and no larger than the window
size. -/
theorem chunkWindows_cover (words : List String) (chunkSize step : Nat)
    (hstep : 0 < step) (hsc : step ≤ chunkSize) :
    ∀ (n start j : Nat) (hj : j < words.length), start ≤ j →
      words.length - start ≤ n →
      words.get ⟨j, hj⟩ ∈ (chunkWindows words chunkSize step start).flatten := by
  intro n
  induction n with
  | zero => intro start j hj hsj hn; omega
  | succ n ih =>
    intro start j hj hsj hn
    have hlt : start < words.length := lt_of_le_of_lt hsj hj
    unfold chunkWindows
    rw [dif_neg (by push_neg; exact ⟨by omega, by omega⟩)]
    rw [List.flatten_cons]
    by_cases hj2 : j < start + chunkSize
    · apply List.mem_append_left
      have hlen : j - start < ((words.drop start).take chunkSize).length := by
        simp [List.length_take, List.length_drop]
        omega
      rw [List.mem_iff_get]
      refine ⟨⟨j - start, hlen⟩, ?_⟩
      simp only [List.get_eq_getElem, List.getElem_take, List.getElem_drop]
      congr 1
      omega
    · apply List.mem_append_right
      exact ih (start + step) j hj (by omega) (by omega)

/-- C6: for overlap below chunkSize the chunker output is exactly the
space-join of the sliding word windows over the normalized word
sequence, and every word of that sequence occurs in at least one
window. -/
theorem chunkText_windows_cover (text : String) (chunkSize overlap : Nat)
    (h : overlap < chunkSize) :
    chunkText text chunkSize overlap =
      (chunkWindows (normWords text) chunkSize (chunkSize - overlap) 0).map
        (String.intercalate " ") ∧
    ∀ j (hj : j < (normWords text).length),
      (normWords text).get ⟨j, hj⟩ ∈
        (chunkWindows (normWords text) chunkSize (chunkSize - overlap) 0).flatten := by
  constructor
  · exact chunkLoop_eq_map_windows (normWords text) chunkSize (chunkSize - overlap)
      (normWords text).length 0 (by omega)
  · intro j hj
    exact chunkWindows_cover (normWords text) chunkSize (chunkSize - overlap)
      (by omega) (by omega) (normWords text).length 0 j hj (by omega) (by omega)

/-- Witness for C6 at a concrete three-word text with window size two and
overlap one. -/
theorem chunkText_windows_cover_witness :
    chunkText "alpha beta gamma" 2 1 =
      (chunkWindows (normWords "alpha beta gamma") 2 1 0).map (String.intercalate " ") ∧
    (normWords "alpha beta gamma").get ⟨2, by decide⟩ ∈
      (chunkWindows (normWords "alpha beta gamma") 2 1 0).flatten :=
  ⟨(chunkText_windows_cover "alpha beta gamma" 2 1 (by omega)).1,
    (chunkText_windows_cover "alpha beta gamma" 2 1 (by omega)).2 2 (by decide)⟩

/-- Helper: replacing one element changes a rational sum by the
difference of the entries. -/
theorem list_sum_set (l : List ℚ) :
    ∀ (i : Nat) (x : ℚ) (hi : i < l.length),
      (l.set i x).sum = l.sum - l.get ⟨i, hi⟩ + x := by
  induction l with
  | nil => intro i x hi; simp at hi
  | cons a t ih =>
    intro i x hi
    cases i with
    | zero => simp; ring
    | succ n =>
      have hn : n < t.length := by simpa using hi
      simp only [List.set_cons_succ, List.sum_cons, List.get_cons_succ]
      rw [ih n x hn]
      ring

/-- C7: the confidence score is monotone non-increasing in each distance:
raising one non-negative distance cannot raise the returned score. -/
theorem calculateConfidence_monotone (distances : List ℚ) (threshold : ℚ)
    (i : Nat) (dBig : ℚ) (hne : distances ≠ []) (hnn : ∀ d ∈ distances, 0 ≤ d)
    (hi : i < distances.length) (hle : distances.get ⟨i, hi⟩ ≤ dBig) :
    (calculateConfidence (distances.set i dBig) threshold).2 ≤
      (calculateConfidence distances threshold).2 := by
  have hne2 : distances.set i dBig ≠ [] := by
    intro hcon
    exact hne (by simpa using congrArg List.length hcon)
  unfold calculateConfidence
  rw [if_neg (by simpa using hne2), if_neg (by simpa using hne)]
  simp only [List.map_set, List.length_set, List.length_map]
  have hiL : i < (distances.map (fun d => 1 / (1 + d))).length := by
    simpa using hi
  rw [list_sum_set _ i _ hiL]
  have hget : (distances.map (fun d => 1 / (1 + d))).get ⟨i, hiL⟩ =
      1 / (1 + distances.get ⟨i, hi⟩) := by
    simp [List.get_eq_getElem, List.getElem_map]
  rw [hget]
  have hd0 : 0 ≤ distances.get ⟨i, hi⟩ :=
    hnn _ (distances.get_mem i hi)
  have hmono : 1 / (1 + dBig) ≤ 1 / (1 + distances.get ⟨i, hi⟩) :=
    one_div_le_one_div_of_le (by linarith) (by linarith)
  have hlenpos : (0 : ℚ) < (distances.length : ℚ) := by
    have : 0 < distances.length := List.length_pos.mpr hne
    exact_mod_cast this
  rw [div_le_div_iff_of_pos_right hlenpos]
  linarith

/-- Witness for C7 at a concrete distance list and position. -/
theorem calculateConfidence_monotone_witness :
    (calculateConfidence ([0, 1].set 0 2) (1/2 : ℚ)).2 ≤
      (calculateConfidence [0, 1] (1/2 : ℚ)).2 :=
  calculateConfidence_monotone [0, 1] (1/2) 0 2 (by decide)
    (by intro d hd; rcases List.mem_pair.mp hd with h | h <;> simp [h])
    (by decide) (by norm_num)

/-- Helper: the faiss wrapper always returns exactly topK triples, the
padding entries included, whatever the number of stored vectors. -/
theorem searchFaiss_length (index : List (List ℚ)) (q : List ℚ)
    (metadata : List (String × String)) (topK : Nat) :
    (searchFaiss index q metadata topK).length = topK := by
  simp only [searchFaiss, faissSearch, List.length_map, List.length_append,
    List.length_take, (List.mergeSort_perm _ _).length_eq, List.length_replicate,
    List.enum_length]
  omega

/-- Counterexample for C3: with one stored vector and topK three, the
search returns three triples, so its length is not bounded by the number
of indexed vectors. -/
theorem searchFaiss_not_bounded_by_count :
    ¬ ((searchFaiss [[(0 : ℚ)]] [(0 : ℚ)] [("doc", "chunk_0.npy")] 3).length ≤
      ([[(0 : ℚ)]] : List (List ℚ)).length) := by
  rw [searchFaiss_length]
  decide

/-- C3 amended: for a nonempty index whose true distances stay within the
float range, the search returns triples in ascending distance order and
of length exactly topK; when topK exceeds the number of stored vectors
the excess entries are FLT_MAX padding, so the length is bounded by topK
but not by the vector count. -/
theorem searchFaiss_sorted_topK (index : List (List ℚ)) (q : List ℚ)
    (metadata : List (String × String)) (topK : Nat)
    (hmeta : metadata.length = index.length) (hne : index ≠ [])
    (hbound : ∀ v ∈ index, sqL2 q v ≤ fltMax) :
    (searchFaiss index q metadata topK).length = topK ∧
    List.Pairwise (fun a b => a.2.2 ≤ b.2.2) (searchFaiss index q metadata topK) := by
  refine ⟨searchFaiss_length index q metadata topK, ?_⟩
  unfold searchFaiss faissSearch
  rw [List.pairwise_map]
  have hsorted :
      List.Pairwise (fun a b : ℚ × Int => a.1 ≤ b.1)
        ((index.enum.map (fun p => (sqL2 q p.2, (p.1 : Int)))).mergeSort
          (fun a b => decide (a.1 ≤ b.1))) := by
    have h :=
      @List.sorted_mergeSort (ℚ × Int) (fun a b => decide (a.1 ≤ b.1))
        (by intro a b c hab hbc
            simp only [decide_eq_true_eq] at *
            exact le_trans hab hbc)
        (by intro a b
            simp only [Bool.or_eq_true, decide_eq_true_eq]
            exact le_total _ _)
        (index.enum.map (fun p => (sqL2 q p.2, (p.1 : Int))))
    exact h.imp (fun hab => by simpa using hab)
  rw [List.pairwise_append]
  refine ⟨List.Pairwise.sublist (List.take_sublist _ _) hsorted, ?_, ?_⟩
  · exact List.pairwise_replicate.mpr (Or.inr le_rfl)
  · intro a ha b hb
    have hbpad := List.eq_of_mem_replicate hb
    have hamem : a ∈ (index.enum.map (fun p => (sqL2 q p.2, (p.1 : Int)))).mergeSort
        (fun a b => decide (a.1 ≤ b.1)) := List.mem_of_mem_take ha
    rw [(List.mergeSort_perm _ _).mem_iff] at hamem
    rcases List.mem_map.mp hamem with ⟨p, hp, hpa⟩
    have hidx : p.2 ∈ index := by
      rcases p with ⟨i, x⟩
      rcases List.mem_enum hp with ⟨hilt, hx⟩
      rw [hx]
      exact List.getElem_mem _
    have h1 : a.1 = sqL2 q p.2 := by rw [← hpa]
    rw [hbpad]
    simpa [h1] using hbound p.2 hidx

/-- Witness for the amended C3 at a concrete two-vector index. -/
theorem searchFaiss_sorted_topK_witness :
    (searchFaiss [[(1 : ℚ)], [(2 : ℚ)]] [(0 : ℚ)]
      [("a", "chunk_0.npy"), ("b", "chunk_1.npy")] 3).length = 3 ∧
    List.Pairwise (fun a b => a.2.2 ≤ b.2.2)
      (searchFaiss [[(1 : ℚ)], [(2 : ℚ)]] [(0 : ℚ)]
        [("a", "chunk_0.npy"), ("b", "chunk_1.npy")] 3) :=
  searchFaiss_sorted_topK [[(1 : ℚ)], [(2 : ℚ)]] [(0 : ℚ)]
    [("a", "chunk_0.npy"), ("b", "chunk_1.npy")] 3 (by decide) (by decide)
    (by intro v hv; fin_cases hv <;> norm_num [sqL2, fltMax])

/-- C4 (behavior of the source function): the embedding cache writes
exactly one vector file per chunk, in chunk order, chunk i going to
chunk_i.npy under the fixed embeddings root of the project and the
given document folder, with the vector produced by the embedding
capability on the text of chunk i. The signature translated from the
source has no embeddings-directory parameter and returns nothing beyond
this write effect. -/
theorem embedChunks_writes (encode : String → List ℚ) (projectRoot : String)
    (chunks : List String) (filename : String) :
    (embedChunks encode projectRoot chunks filename).map Prod.fst =
      (List.range chunks.length).map
        (fun i =>
          projectRoot ++ "/embeddings/" ++ filename ++ "/chunk_" ++ Nat.repr i ++ ".npy") ∧
    (embedChunks encode projectRoot chunks filename).map Prod.snd = chunks.map encode := by
  constructor
  · unfold embedChunks
    rw [List.map_map, ← List.enum_map_fst chunks, List.map_map]
    rfl
  · unfold embedChunks
    rw [List.map_map]
    conv_rhs => rw [← List.enum_map_snd chunks]
    rw [List.map_map]
    rfl

/-- Helper: the two persisted paths of one index directory differ. -/
theorem indexPaths_ne (d : String) :
    (d ++ "/metadata.json") ≠ (d ++ "/faiss_index.bin") := by
  intro h
  have hd := congrArg String.data h
  simp only [String.data_append] at hd
  have h2 : ("/metadata.json" : String).data = ("/faiss_index.bin" : String).data :=
    List.append_cancel_left hd
  exact absurd h2 (by decide)

/-- Helper: a lookup right after a write to the same path sees the
written value. -/
theorem fsLookup_write_eq (fs : List (String × StoredFile)) (p : String)
    (v : StoredFile) : fsLookup (fsWrite fs p v) p = some v := by
  simp [fsLookup, fsWrite]

/-- Helper: a lookup after a write to a different path is unchanged. -/
theorem fsLookup_write_ne (fs : List (String × StoredFile)) (p q : String)
    (v : StoredFile) (h : p ≠ q) :
    fsLookup (fsWrite fs p v) q = fsLookup fs q := by
  simp [fsLookup, fsWrite, List.find?, beq_eq_false_iff_ne.mpr h]

/-- Helper: with both artifacts present at the index directory, the
build-or-load operation loads them and changes nothing. -/
theorem buildFaissIndex_load (fs : List (String × StoredFile))
    (emb : List (String × List (String × NpFile))) (indexDir : String)
    (vecs : List (List ℚ)) (md : List (String × String))
    (hI : fsLookup fs (indexDir ++ "/faiss_index.bin") = some (.faissIndex vecs))
    (hM : fsLookup fs (indexDir ++ "/metadata.json") = some (.metaJson md)) :
    buildFaissIndex fs emb indexDir = .ok (fs, vecs, md) := by
  simp only [buildFaissIndex, hI, hM]

/-- C8: when a build-or-load call succeeds, calling it again on the
resulting store and the same directory loads the persisted artifacts and
returns the store, index and metadata unchanged, the metadata keeping its
length and order. -/
theorem buildFaissIndex_roundtrip (fs : List (String × StoredFile))
    (emb : List (String × List (String × NpFile))) (indexDir : String)
    (fs2 : List (String × StoredFile)) (idx : List (List ℚ))
    (md : List (String × String))
    (h : buildFaissIndex fs emb indexDir = .ok (fs2, idx, md)) :
    buildFaissIndex fs2 emb indexDir = .ok (fs2, idx, md) := by
  rcases hI : fsLookup fs (indexDir ++ "/faiss_index.bin") with _ | f <;>
    rcases hM : fsLookup fs (indexDir ++ "/metadata.json") with _ | m
  case none.none | none.some | some.none =>
    simp only [buildFaissIndex, hI, hM] at h
    split at h
    · exact Except.noConfusion h
    · split at h
      · simp only [Except.ok.injEq, Prod.mk.injEq] at h
        obtain ⟨h1, h2, h3⟩ := h
        subst h1 h2 h3
        exact buildFaissIndex_load _ emb indexDir _ _
          (by
            rw [fsLookup_write_ne _ _ _ _ (indexPaths_ne indexDir)]
            exact fsLookup_write_eq fs _ _)
          (fsLookup_write_eq _ _ _)
      · exact Except.noConfusion h
  case some.some =>
    cases f with
    | metaJson md1 =>
      cases m <;> simp only [buildFaissIndex, hI, hM] at h <;>
        exact Except.noConfusion h
    | faissIndex vecs =>
      cases m with
      | faissIndex v2 =>
        simp only [buildFaissIndex, hI, hM] at h
        exact Except.noConfusion h
      | metaJson md0 =>
        simp only [buildFaissIndex, hI, hM] at h
        simp only [Except.ok.injEq, Prod.mk.injEq] at h
        obtain ⟨h1, h2, h3⟩ := h
        subst h1 h2 h3
        exact buildFaissIndex_load fs emb indexDir _ _ hI hM

/-- Witness for C8: build once on a one-chunk store, then reload. -/
theorem buildFaissIndex_roundtrip_witness :
    buildFaissIndex
      [("idx" ++ "/metadata.json", StoredFile.metaJson [("doc", "chunk_0.npy")]),
        ("idx" ++ "/faiss_index.bin", StoredFile.faissIndex [[(1 : ℚ), 2]])]
      [("doc", [("chunk_0.npy", NpFile.vec [(1 : ℚ), 2])])] "idx" =
      .ok
        ([("idx" ++ "/metadata.json", StoredFile.metaJson [("doc", "chunk_0.npy")]),
          ("idx" ++ "/faiss_index.bin", StoredFile.faissIndex [[(1 : ℚ), 2]])],
          [[(1 : ℚ), 2]], [("doc", "chunk_0.npy")]) :=
  buildFaissIndex_roundtrip [] [("doc", [("chunk_0.npy", NpFile.vec [(1 : ℚ), 2])])]
    "idx" _ _ _ (by rfl)

/-! ## Injectivity of the decimal rendering of counters

The de-duplication loop of saveUploadedPdf builds candidate names from a
decimal counter; its termination on a finite filesystem rests on the
injectivity of that rendering, proved here from the digit expansion. -/

/-- Helper: the digit character map is injective below base ten. -/
theorem digitChar_inj_lt : ∀ a < 10, ∀ b < 10, Nat.digitChar a = Nat.digitChar b → a = b := by
  decide

/-- Helper: the fueled core of the decimal rendering agrees with the
digit expansion once the fuel is sufficient. -/
theorem toDigitsCore10_eq : ∀ (fuel n : Nat) (acc : List Char),
    n < fuel →
    Nat.toDigitsCore 10 fuel n acc =
      (if n = 0 then [Nat.digitChar 0]
       else ((Nat.digits 10 n).map Nat.digitChar).reverse) ++ acc := by
  intro fuel
  induction fuel with
  | zero => intro n acc h; omega
  | succ fuel ih =>
    intro n acc h
    show Nat.toDigitsCore 10 (fuel + 1) n acc = _
    rw [Nat.toDigitsCore]
    by_cases h0 : n = 0
    · subst h0
      simp
    · by_cases h10 : n / 10 = 0
      · simp only [h10, if_true, if_neg h0]
        have hd : Nat.digits 10 n = [n % 10] := by
          rw [Nat.digits_def' (by norm_num) (Nat.pos_of_ne_zero h0), h10]
          simp
        rw [hd]
        simp
      · simp only [h10, if_false, if_neg h0]
        rw [ih (n / 10) _ (by omega)]
        rw [if_neg h10]
        have hd : Nat.digits 10 n = n % 10 :: Nat.digits 10 (n / 10) :=
          Nat.digits_def' (by norm_num) (Nat.pos_of_ne_zero h0)
        rw [hd]
        simp

/-- Helper: digit-character lists of digit sequences determine them. -/
theorem map_digitChar_inj : ∀ (l1 l2 : List Nat), (∀ x ∈ l1, x < 10) → (∀ x ∈ l2, x < 10) →
    l1.map Nat.digitChar = l2.map Nat.digitChar → l1 = l2 := by
  intro l1
  induction l1 with
  | nil =>
    intro l2 _ _ h
    cases l2 with
    | nil => rfl
    | cons b t2 => simp at h
  | cons a t ih =>
    intro l2 h1 h2 h
    cases l2 with
    | nil => simp at h
    | cons b t2 =>
      simp only [List.map_cons, List.cons.injEq] at h
      have hab : a = b :=
        digitChar_inj_lt a (h1 a (List.mem_cons_self a t)) b
          (h2 b (List.mem_cons_self b t2)) h.1
      rw [hab, ih t2 (fun x hx => h1 x (List.mem_cons_of_mem a hx))
        (fun x hx => h2 x (List.mem_cons_of_mem b hx)) h.2]

/-- Helper: the character list of the decimal rendering is injective. -/
theorem natRepr_data_injective : Function.Injective (fun n => (Nat.repr n).data) := by
  intro n m h
  simp only [Nat.repr, List.asString] at h
  have hn := toDigitsCore10_eq (n + 1) n [] (by omega)
  have hm := toDigitsCore10_eq (m + 1) m [] (by omega)
  unfold Nat.toDigits at h
  rw [hn, hm] at h
  simp only [List.append_nil] at h
  by_cases h0n : n = 0 <;> by_cases h0m : m = 0
  · rw [h0n, h0m]
  · rw [if_pos h0n, if_neg h0m] at h
    exfalso
    have hdig : (Nat.digits 10 m).map Nat.digitChar = [Nat.digitChar 0] := by
      have := congrArg List.reverse h
      simpa using this.symm
    cases hd : Nat.digits 10 m with
    | nil => simp [hd] at hdig
    | cons d t =>
      rw [hd] at hdig
      simp only [List.map_cons, List.cons.injEq] at hdig
      have ht : t = [] := by
        have := hdig.2
        cases t with
        | nil => rfl
        | cons x xs => simp at this
      have hd10 : d < 10 :=
        Nat.digits_lt_base (by norm_num) (by rw [hd]; exact List.mem_cons_self d t)
      have hd0 : d = 0 := digitChar_inj_lt d hd10 0 (by norm_num) hdig.1
      have hzero : Nat.digits 10 m = [0] := by rw [hd, ht, hd0]
      have hm0 : m = 0 := by
        have := congrArg (Nat.ofDigits 10) hzero
        simpa [Nat.ofDigits_digits, Nat.ofDigits] using this
      exact h0m hm0
  · rw [if_neg h0n, if_pos h0m] at h
    exfalso
    have hdig : (Nat.digits 10 n).map Nat.digitChar = [Nat.digitChar 0] := by
      have := congrArg List.reverse h
      simpa using this
    cases hd : Nat.digits 10 n with
    | nil => simp [hd] at hdig
    | cons d t =>
      rw [hd] at hdig
      simp only [List.map_cons, List.cons.injEq] at hdig
      have ht : t = [] := by
        have := hdig.2
        cases t with
        | nil => rfl
        | cons x xs => simp at this
      have hd10 : d < 10 :=
        Nat.digits_lt_base (by norm_num) (by rw [hd]; exact List.mem_cons_self d t)
      have hd0 : d = 0 := digitChar_inj_lt d hd10 0 (by norm_num) hdig.1
      have hzero : Nat.digits 10 n = [0] := by rw [hd, ht, hd0]
      have hn0 : n = 0 := by
        have := congrArg (Nat.ofDigits 10) hzero
        simpa [Nat.ofDigits_digits, Nat.ofDigits] using this
      exact h0n hn0
  · rw [if_neg h0n, if_neg h0m] at h
    have h2 : (Nat.digits 10 n).map Nat.digitChar = (Nat.digits 10 m).map Nat.digitChar := by
      have := congrArg List.reverse h
      simpa using this
    have h3 : Nat.digits 10 n = Nat.digits 10 m :=
      map_digitChar_inj _ _
        (fun x hx => Nat.digits_lt_base (by norm_num) hx)
        (fun x hx => Nat.digits_lt_base (by norm_num) hx) h2
    have := congrArg (Nat.ofDigits 10) h3
    simpa [Nat.ofDigits_digits] using this

/-- Helper: the decimal rendering of naturals is injective. -/
theorem natRepr_injective : Function.Injective Nat.repr := by
  intro n m h
  exact natRepr_data_injective (show (Nat.repr n).data = (Nat.repr m).data from by rw [h])

/-- Helper: distinct counters give distinct candidate paths. -/
theorem candidatePath_injective (d stem ext : String) :
    Function.Injective (candidatePath d stem ext) := by
  intro j k h
  unfold candidatePath at h
  have hd := congrArg String.data h
  simp only [String.data_append, List.append_assoc] at hd
  have h1 := List.append_cancel_left hd
  have h2 := List.append_cancel_left h1
  have h3 := List.append_cancel_left h2
  have h4 := List.append_cancel_left h3
  have h5 := List.append_cancel_right h4
  exact natRepr_data_injective h5

/-- Helper: on a finite filesystem some counter among the first
length-plus-one candidates is free. -/
theorem exists_fresh_candidate (fs : List String) (d stem ext : String) :
    ∃ k, 1 ≤ k ∧ k ≤ fs.length + 1 ∧ candidatePath d stem ext k ∉ fs := by
  by_contra hcon
  push_neg at hcon
  have hsub :
      ((List.range (fs.length + 1)).map (fun i => candidatePath d stem ext (i + 1))) ⊆
        fs := by
    intro x hx
    rcases List.mem_map.mp hx with ⟨i, hi, rfl⟩
    have hir := List.mem_range.mp hi
    exact hcon (i + 1) (by omega) (by omega)
  have hnd :
      ((List.range (fs.length + 1)).map
        (fun i => candidatePath d stem ext (i + 1))).Nodup := by
    refine List.Nodup.map ?_ (List.nodup_range _)
    intro a b hab
    have := candidatePath_injective d stem ext hab
    omega
  have hlen := (hnd.subperm hsub).length_le
  simp only [List.length_map, List.length_range] at hlen
  omega

/-- Helper: as soon as a free candidate lies within the fuel window, the
search loop of saveUploadedPdf lands on a path that is not yet taken. -/
theorem dedupLoop_fresh (fs : List String) (d stem ext : String) :
    ∀ (fuel counter : Nat),
      (∃ k, counter ≤ k ∧ k < counter + fuel ∧ candidatePath d stem ext k ∉ fs) →
      dedupLoop fs d stem ext counter fuel ∉ fs := by
  intro fuel
  induction fuel with
  | zero =>
    rintro counter ⟨k, h1, h2, h3⟩
    omega
  | succ fuel ih =>
    rintro counter ⟨k, h1, h2, h3⟩
    show (if candidatePath d stem ext counter ∈ fs then
        dedupLoop fs d stem ext (counter + 1) fuel
      else candidatePath d stem ext counter) ∉ fs
    by_cases hc : candidatePath d stem ext counter ∈ fs
    · rw [if_pos hc]
      have hne : k ≠ counter := by
        intro he
        rw [he] at h3
        exact h3 hc
      exact ih (counter + 1) ⟨k, by omega, by omega, h3⟩
    · rw [if_neg hc]
      exact hc

/-- Helper: the path saveUploadedPdf stores to is never an existing one. -/
theorem resolveUploadPath_fresh (fs : List String) (d name : String) :
    resolveUploadPath fs d name ∉ fs := by
  simp only [resolveUploadPath]
  by_cases hp : (d ++ "/" ++ name) ∈ fs
  · rw [if_pos hp]
    obtain ⟨k, hk1, hk2, hk3⟩ := exists_fresh_candidate fs d (pyStem name) (pySuffix name)
    exact dedupLoop_fresh fs d _ _ (fs.length + 1) 1 ⟨k, hk1, by omega, hk3⟩
  · rw [if_neg hp]
    exact hp

/-- Helper: stem and suffix of a file name split its characters. -/
theorem stem_suffix_length (name : String) :
    (pyStem name).data.length + (pySuffix name).data.length = name.data.length := by
  unfold pyStem pySuffix
  rcases h : pyRfind name.data '.' with _ | i
  · show name.data.length + ("" : String).data.length = name.data.length
    simp
  · show (if 0 < i ∧ i < name.data.length - 1 then
        (⟨name.data.take i⟩ : String) else name).data.length +
      (if 0 < i ∧ i < name.data.length - 1 then
        (⟨name.data.drop i⟩ : String) else "").data.length = name.data.length
    by_cases hc : 0 < i ∧ i < name.data.length - 1
    · rw [if_pos hc, if_pos hc]
      show (name.data.take i).length + (name.data.drop i).length = name.data.length
      rw [List.length_take, List.length_drop]
      omega
    · rw [if_neg hc, if_neg hc]
      simp

/-- Helper: the first suffixed candidate is two characters longer than
the plain upload path, so the two can never coincide. -/
theorem candidate_one_ne_plain (d name : String) :
    candidatePath d (pyStem name) (pySuffix name) 1 ≠ d ++ "/" ++ name := by
  intro h
  have hlen := congrArg (fun s : String => s.data.length) h
  simp only [candidatePath, String.data_append, List.length_append] at hlen
  have hse := stem_suffix_length name
  have h1 : ("/" : String).data.length = 1 := rfl
  have h2 : ("_" : String).data.length = 1 := rfl
  have h3 : (Nat.repr 1).data.length = 1 := rfl
  omega

/-- C9: the upload path resolution never reuses an existing path, so a
second upload of the same file name lands on a path distinct from the
first; on a session where the plain name and its first suffixed variant
are both free, the first upload stores under the plain name and the
second under the stem_1 suffixed name. -/
theorem saveUploadedPdf_dedup_distinct (fs : List String) (d name : String) :
    resolveUploadPath fs d name ∉ fs ∧
    resolveUploadPath (resolveUploadPath fs d name :: fs) d name ≠
      resolveUploadPath fs d name ∧
    ((d ++ "/" ++ name) ∉ fs →
      candidatePath d (pyStem name) (pySuffix name) 1 ∉ fs →
      resolveUploadPath fs d name = d ++ "/" ++ name ∧
      resolveUploadPath (resolveUploadPath fs d name :: fs) d name =
        candidatePath d (pyStem name) (pySuffix name) 1) := by
  refine ⟨resolveUploadPath_fresh fs d name, ?_, ?_⟩
  · have hf := resolveUploadPath_fresh (resolveUploadPath fs d name :: fs) d name
    intro he
    rw [he] at hf
    exact hf (List.mem_cons_self _ _)
  · intro h1 h2
    have hp1 : resolveUploadPath fs d name = d ++ "/" ++ name := by
      simp only [resolveUploadPath]
      rw [if_neg h1]
    refine ⟨hp1, ?_⟩
    rw [hp1]
    simp only [resolveUploadPath]
    rw [if_pos (List.mem_cons_self _ _)]
    have hfuel : ((d ++ "/" ++ name) :: fs).length + 1 = (fs.length + 1) + 1 := by
      simp
    rw [hfuel]
    show (if candidatePath d (pyStem name) (pySuffix name) 1 ∈
          ((d ++ "/" ++ name) :: fs) then
        dedupLoop ((d ++ "/" ++ name) :: fs) d (pyStem name) (pySuffix name) 2
          (fs.length + 1)
      else candidatePath d (pyStem name) (pySuffix name) 1) =
      candidatePath d (pyStem name) (pySuffix name) 1
    rw [if_neg]
    intro hmem
    rcases List.mem_cons.mp hmem with he | hin
    · exact candidate_one_ne_plain d name he
    · exact h2 hin

/-- Witness for C9 on a fresh session directory. -/
theorem saveUploadedPdf_dedup_distinct_witness :
    resolveUploadPath [] "data/sessions/s1/uploads" "name.pdf" ∉ ([] : List String) ∧
    resolveUploadPath
        (resolveUploadPath [] "data/sessions/s1/uploads" "name.pdf" :: [])
        "data/sessions/s1/uploads" "name.pdf" ≠
      resolveUploadPath [] "data/sessions/s1/uploads" "name.pdf" ∧
    (resolveUploadPath [] "data/sessions/s1/uploads" "name.pdf" =
        "data/sessions/s1/uploads" ++ "/" ++ "name.pdf" ∧
      resolveUploadPath
          (resolveUploadPath [] "data/sessions/s1/uploads" "name.pdf" :: [])
          "data/sessions/s1/uploads" "name.pdf" =
        candidatePath "data/sessions/s1/uploads" (pyStem "name.pdf")
          (pySuffix "name.pdf") 1) :=
  ⟨(saveUploadedPdf_dedup_distinct [] "data/sessions/s1/uploads" "name.pdf").1,
    (saveUploadedPdf_dedup_distinct [] "data/sessions/s1/uploads" "name.pdf").2.1,
    (saveUploadedPdf_dedup_distinct [] "data/sessions/s1/uploads" "name.pdf").2.2
      (by simp) (by simp)⟩
